import Mathlib

/-!
Verification of the nonlinear-dynamics feature-extraction engine of the
chaos-enhanced-feature-engineering repository, embedded shallowly from
`src/visualization-app/src/RQAVisualization.jsx` and
`src/visualization-app/src/App.jsx`.

Modeling conventions:
* JS numbers are modelled as rationals (`ℚ`) where the source only adds,
  subtracts, multiplies, divides and compares them; `Real.sqrt`, `Real.log`,
  `Real.exp` and `Real.sin` enter where the source calls `Math.sqrt`,
  `Math.log`, `Math.exp`, `Math.sin`.
* A JS division whose denominator is `0` produces `NaN` or `Infinity`, a
  non-finite value; it is modelled by `jsDiv : ℚ → ℚ → Option ℚ` returning
  `none` in that case.
* JS `for` loops over `i < n` with `n` computed as a possibly negative
  integer run `max n 0` times; the bound is taken through `Int.toNat`.
* Out-of-bounds array reads are modelled by `List.getD` with default `0`;
  the lemmas below show the loops never actually read out of bounds in the
  cases with `embeddingDim ≥ 1`.
-/

namespace ChaosFE

/-! ## Distance / recurrence builder (`computeRecurrenceMatrix`, RQAVisualization.jsx 80-110) -/

/-- Number of embedded vectors: the source computes
`n = signal.length - (embeddingDim - 1) * delay` in JS integer arithmetic
(possibly negative) and every loop `for (let i = 0; i < n; i++)` then runs
`max n 0` times. -/
def numVectors (N embeddingDim delay : ℕ) : ℕ :=
  ((N : ℤ) - ((embeddingDim : ℤ) - 1) * (delay : ℤ)).toNat

/-- The embedded delay vectors built in the first loop of
`computeRecurrenceMatrix`: `vectors[i][d] = signal[i + d * delay]`. -/
def embedVectors (signal : List ℚ) (embeddingDim delay : ℕ) : List (List ℚ) :=
  (List.range (numVectors signal.length embeddingDim delay)).map fun i =>
    (List.range embeddingDim).map fun d => signal.getD (i + d * delay) 0

/-- Squared Euclidean distance accumulated by
`dist += Math.pow(vectors[i][d] - vectors[j][d], 2)`. -/
def distSq (v w : List ℚ) (embeddingDim : ℕ) : ℚ :=
  ((List.range embeddingDim).map fun d => (v.getD d 0 - w.getD d 0) ^ 2).sum

/-- One matrix entry: the source pushes `Math.sqrt(dist) <= threshold ? 1 : 0`.
Over the reals `Real.sqrt d ≤ t ↔ 0 ≤ t ∧ d ≤ t ^ 2` (`Real.sqrt_le_iff`),
which is the decidable rational form used here; `recEntry_eq_sqrt` below
proves the two conditions agree, so this is the source's test verbatim. -/
def recEntry (d threshold : ℚ) : ℕ :=
  if 0 ≤ threshold ∧ d ≤ threshold ^ 2 then 1 else 0

/-- `computeRecurrenceMatrix(signal, threshold, embeddingDim, delay)`:
embed, then threshold all pairwise Euclidean distances. -/
def computeRecurrenceMatrix (signal : List ℚ) (threshold : ℚ)
    (embeddingDim delay : ℕ) : List (List ℕ) :=
  let n := numVectors signal.length embeddingDim delay
  let vectors := embedVectors signal embeddingDim delay
  (List.range n).map fun i =>
    (List.range n).map fun j =>
      recEntry (distSq (vectors.getD i []) (vectors.getD j []) embeddingDim) threshold

/-- Access `matrix[i][j]`, with the JS out-of-bounds read modelled by 0. -/
def entry (matrix : List (List ℕ)) (i j : ℕ) : ℕ := (matrix.getD i []).getD j 0

/-- The decidable entry condition is exactly the source's
`Math.sqrt(dist) <= threshold` test. -/
theorem recEntry_eq_sqrt (d t : ℚ) :
    recEntry d t = if Real.sqrt (d : ℝ) ≤ (t : ℝ) then 1 else 0 := by
  have h : Real.sqrt (d : ℝ) ≤ (t : ℝ) ↔ (0 ≤ t ∧ d ≤ t ^ 2) := by
    rw [Real.sqrt_le_iff]
    constructor
    · rintro ⟨h1, h2⟩
      exact ⟨by exact_mod_cast h1, by exact_mod_cast h2⟩
    · rintro ⟨h1, h2⟩
      exact ⟨by exact_mod_cast h1, by exact_mod_cast h2⟩
  rw [recEntry, if_congr h.symm rfl rfl]

theorem length_computeRecurrenceMatrix (signal : List ℚ) (threshold : ℚ)
    (embeddingDim delay : ℕ) :
    (computeRecurrenceMatrix signal threshold embeddingDim delay).length
      = numVectors signal.length embeddingDim delay := by
  simp [computeRecurrenceMatrix]

theorem getD_of_range_map {α : Type} (n : ℕ) (f : ℕ → α) (d : α) (i : ℕ) (hi : i < n) :
    ((List.range n).map f).getD i d = f i := by
  rw [List.getD_eq_getElem?_getD, List.getElem?_map, List.getElem?_range hi]
  rfl

theorem getD_of_range_map_ge {α : Type} (n : ℕ) (f : ℕ → α) (d : α) (i : ℕ) (hi : n ≤ i) :
    ((List.range n).map f).getD i d = d := by
  rw [List.getD_eq_getElem?_getD, List.getElem?_eq_none (by simpa using hi)]
  rfl

theorem entry_computeRecurrenceMatrix (signal : List ℚ) (threshold : ℚ)
    (embeddingDim delay : ℕ) (i j : ℕ)
    (hi : i < numVectors signal.length embeddingDim delay)
    (hj : j < numVectors signal.length embeddingDim delay) :
    entry (computeRecurrenceMatrix signal threshold embeddingDim delay) i j
      = recEntry (distSq ((embedVectors signal embeddingDim delay).getD i [])
          ((embedVectors signal embeddingDim delay).getD j []) embeddingDim) threshold := by
  rw [entry, computeRecurrenceMatrix]
  rw [getD_of_range_map _ _ _ i hi, getD_of_range_map _ _ _ j hj]

theorem entry_computeRecurrenceMatrix_row_ge (signal : List ℚ) (threshold : ℚ)
    (embeddingDim delay : ℕ) (i j : ℕ)
    (hi : numVectors signal.length embeddingDim delay ≤ i) :
    entry (computeRecurrenceMatrix signal threshold embeddingDim delay) i j = 0 := by
  rw [entry, computeRecurrenceMatrix]
  rw [getD_of_range_map_ge _ _ _ i hi]
  rfl

theorem entry_computeRecurrenceMatrix_col_ge (signal : List ℚ) (threshold : ℚ)
    (embeddingDim delay : ℕ) (i j : ℕ)
    (hj : numVectors signal.length embeddingDim delay ≤ j) :
    entry (computeRecurrenceMatrix signal threshold embeddingDim delay) i j = 0 := by
  rcases lt_or_le i (numVectors signal.length embeddingDim delay) with hi | hi
  · rw [entry, computeRecurrenceMatrix]
    rw [getD_of_range_map _ _ _ i hi, getD_of_range_map_ge _ _ _ j hj]
  · exact entry_computeRecurrenceMatrix_row_ge signal threshold embeddingDim delay i j hi

theorem distSq_comm (v w : List ℚ) (m : ℕ) : distSq v w m = distSq w v m := by
  unfold distSq
  congr 1
  apply List.map_congr_left
  intro d _
  ring

theorem distSq_self (v : List ℚ) (m : ℕ) : distSq v v m = 0 := by
  unfold distSq
  have h : ((List.range m).map fun d => (v.getD d 0 - v.getD d 0) ^ 2)
      = (List.range m).map fun _ => (0 : ℚ) := by
    apply List.map_congr_left
    intro d _
    ring
  rw [h]
  simp

/-! ## Line-structure extractor (RQAVisualization.jsx 113-219)

All three scans of the source share one run-accumulation state machine over a
list of cells: `lineLength` starts at 0, a cell equal to 1 extends the current
run (recording `lineStart` when the run opens), any other cell terminates it
(emitting it when `lineLength >= minLength`), and the end of the scan
terminates a pending run the same way.  `lineStart` is `null` until the first
run opens, modelled by `Option ℕ`. -/

/-- The shared run-accumulation loop body, recursing over the remaining cells
with state `(p, len, start)`: current position, current run length, recorded
run start (`none` models the JS `null`). -/
def runsAux (minLength : ℕ) : List ℕ → ℕ → ℕ → Option ℕ → List (Option ℕ × ℕ)
  | [], _, len, start => if minLength ≤ len then [(start, len)] else []
  | c :: rest, p, len, start =>
    if c = 1 then
      runsAux minLength rest (p + 1) (len + 1) (if len = 0 then some p else start)
    else
      (if minLength ≤ len then [(start, len)] else []) ++ runsAux minLength rest (p + 1) 0 start

/-- All runs emitted by one scan over `cells`, as `(start index, length)`. -/
def runs (cells : List ℕ) (minLength : ℕ) : List (Option ℕ × ℕ) :=
  runsAux minLength cells 0 0 none

/-- Length of the run of ones at the head of a cell list. -/
def leadOnes : List ℕ → ℕ
  | [] => 0
  | c :: rest => if c = 1 then leadOnes rest + 1 else 0

/-- Declarative statement that positions `s, …, s+L-1` of `cells` hold a
maximal run of ones: nonempty, within bounds, all ones, not extendable to the
left or to the right. -/
def IsMaxRun (cells : List ℕ) (s L : ℕ) : Prop :=
  1 ≤ L ∧ s + L ≤ cells.length ∧ (∀ t, t < L → cells.getD (s + t) 0 = 1) ∧
    (s = 0 ∨ cells.getD (s - 1) 0 ≠ 1) ∧
    (s + L = cells.length ∨ cells.getD (s + L) 0 ≠ 1)

instance (cells : List ℕ) (s L : ℕ) : Decidable (IsMaxRun cells s L) := by
  unfold IsMaxRun
  infer_instance

theorem IsMaxRun_nil (s L : ℕ) : ¬ IsMaxRun [] s L := by
  rintro ⟨h1, h2, -⟩
  simp at h2
  omega

theorem leadOnes_le_length (cells : List ℕ) : leadOnes cells ≤ cells.length := by
  induction cells with
  | nil => simp [leadOnes]
  | cons c rest ih =>
    rw [leadOnes]
    split <;> simp <;> omega

theorem leadOnes_ones (cells : List ℕ) : ∀ t, t < leadOnes cells → cells.getD t 0 = 1 := by
  induction cells with
  | nil => simp [leadOnes]
  | cons c rest ih =>
    intro t ht
    rw [leadOnes] at ht
    by_cases hc : c = 1
    · rw [if_pos hc] at ht
      cases t with
      | zero => simpa using hc
      | succ t => exact ih t (by omega)
    · rw [if_neg hc] at ht
      omega

theorem leadOnes_stop (cells : List ℕ) (h : leadOnes cells < cells.length) :
    cells.getD (leadOnes cells) 0 ≠ 1 := by
  induction cells with
  | nil => simp at h
  | cons c rest ih =>
    by_cases hc : c = 1
    · rw [leadOnes, if_pos hc] at h ⊢
      simpa using ih (by simpa using h)
    · rw [leadOnes, if_neg hc]
      simpa using hc

theorem leadOnes_eq_of (cells : List ℕ) (a : ℕ) (ha : a ≤ cells.length)
    (hones : ∀ t, t < a → cells.getD t 0 = 1)
    (hstop : a = cells.length ∨ cells.getD a 0 ≠ 1) : leadOnes cells = a := by
  have h1 : a ≤ leadOnes cells := by
    by_contra hlt
    push_neg at hlt
    have := leadOnes_stop cells (lt_of_lt_of_le hlt ha)
    exact this (hones _ hlt)
  have h2 : leadOnes cells ≤ a := by
    by_contra hlt
    push_neg at hlt
    rcases hstop with h | h
    · have := leadOnes_le_length cells
      omega
    · exact h (leadOnes_ones cells a hlt)
  omega

theorem leadOnes_cons_one (rest : List ℕ) : leadOnes (1 :: rest) = leadOnes rest + 1 := by
  rw [leadOnes, if_pos rfl]

theorem leadOnes_cons_ne (c : ℕ) (rest : List ℕ) (hc : c ≠ 1) : leadOnes (c :: rest) = 0 := by
  rw [leadOnes, if_neg hc]

/-- Shifting a maximal run across one prepended cell. -/
theorem IsMaxRun_cons_succ (c : ℕ) (rest : List ℕ) (s L : ℕ) :
    IsMaxRun (c :: rest) (s + 1) L ↔ (IsMaxRun rest s L ∧ (s = 0 → c ≠ 1)) := by
  have hget : ∀ t, (c :: rest).getD (t + 1) 0 = rest.getD t 0 := by
    intro t
    rfl
  constructor
  · rintro ⟨h1, h2, h3, h4, h5⟩
    refine ⟨⟨h1, by simp only [List.length_cons] at h2; omega, ?_, ?_, ?_⟩, ?_⟩
    · intro t ht
      have := h3 t ht
      rwa [show s + 1 + t = (s + t) + 1 by omega, hget] at this
    · rcases Nat.eq_zero_or_pos s with hs | hs
      · exact Or.inl hs
      · rcases h4 with h4 | h4
        · omega
        · refine Or.inr ?_
          rwa [show s + 1 - 1 = (s - 1) + 1 by omega, hget] at h4
    · rcases h5 with h5 | h5
      · exact Or.inl (by simp only [List.length_cons] at h5; omega)
      · exact Or.inr (by rwa [show s + 1 + L = (s + L) + 1 by omega, hget] at h5)
    · intro hs
      subst hs
      rcases h4 with h4 | h4
      · omega
      · simpa using h4
  · rintro ⟨⟨h1, h2, h3, h4, h5⟩, hc⟩
    refine ⟨h1, by simp only [List.length_cons]; omega, ?_, ?_, ?_⟩
    · intro t ht
      rw [show s + 1 + t = (s + t) + 1 by omega, hget]
      exact h3 t ht
    · refine Or.inr ?_
      rcases Nat.eq_zero_or_pos s with hs | hs
      · subst hs
        simpa using hc rfl
      · rw [show s + 1 - 1 = (s - 1) + 1 by omega, hget]
        rcases h4 with h4 | h4
        · omega
        · exact h4
    · rcases h5 with h5 | h5
      · exact Or.inl (by simp only [List.length_cons]; omega)
      · exact Or.inr (by rw [show s + 1 + L = (s + L) + 1 by omega, hget]; exact h5)

/-- A maximal run at the head of the list is exactly the run of leading ones. -/
theorem IsMaxRun_zero (cells : List ℕ) (L : ℕ) :
    IsMaxRun cells 0 L ↔ (1 ≤ L ∧ L = leadOnes cells) := by
  constructor
  · rintro ⟨h1, h2, h3, -, h5⟩
    refine ⟨h1, ?_⟩
    have := leadOnes_eq_of cells L (by simpa using h2) (by simpa using h3)
      (by simpa using h5)
    omega
  · rintro ⟨h1, h2⟩
    subst h2
    refine ⟨h1, by simpa using leadOnes_le_length cells, by simpa using leadOnes_ones cells,
      Or.inl rfl, ?_⟩
    rcases Nat.lt_or_ge (leadOnes cells) cells.length with h | h
    · exact Or.inr (by simpa using leadOnes_stop cells h)
    · exact Or.inl (by have := leadOnes_le_length cells; omega)

/-- Full characterisation of what `runsAux` emits, generalised over the scan
state: either the pending run, closed by the leading ones of the remaining
cells, or a maximal run lying properly inside the remaining cells. -/
theorem mem_runsAux (minLength : ℕ) (hmin : 1 ≤ minLength) :
    ∀ (cells : List ℕ) (p len : ℕ) (start o : Option ℕ) (L : ℕ),
    ((o, L) ∈ runsAux minLength cells p len start ↔
      (minLength ≤ L ∧
        ((1 ≤ len ∧ o = start ∧ L = len + leadOnes cells) ∨
         (∃ s, o = some (p + s) ∧ (1 ≤ s ∨ len = 0) ∧ IsMaxRun cells s L)))) := by
  intro cells
  induction cells with
  | nil =>
    intro p len start o L
    rw [runsAux]
    constructor
    · intro hmem
      by_cases h : minLength ≤ len
      · rw [if_pos h] at hmem
        simp only [List.mem_singleton, Prod.mk.injEq] at hmem
        exact ⟨hmem.2 ▸ h, Or.inl ⟨by omega, hmem.1, by simp [leadOnes, hmem.2]⟩⟩
      · rw [if_neg h] at hmem
        simp at hmem
    · rintro ⟨hL, hcase⟩
      rcases hcase with ⟨h1, ho, hlen⟩ | ⟨s, -, -, hrun⟩
      · have hL' : L = len := by simp [leadOnes] at hlen; omega
        subst hL'
        rw [if_pos hL]
        simp [ho]
      · exact absurd hrun (IsMaxRun_nil s L)
  | cons c rest ih =>
    intro p len start o L
    by_cases hc : c = 1
    · subst hc
      rw [runsAux, if_pos rfl, ih]
      constructor
      · rintro ⟨hL, hcase⟩
        refine ⟨hL, ?_⟩
        rcases hcase with ⟨-, ho, hlen⟩ | ⟨s, ho, hs, hrun⟩
        · by_cases hz : len = 0
          · subst hz
            rw [if_pos rfl] at ho
            refine Or.inr ⟨0, by simpa using ho, Or.inr rfl, ?_⟩
            rw [IsMaxRun_zero, leadOnes_cons_one]
            omega
          · rw [if_neg hz] at ho
            exact Or.inl ⟨by omega, ho, by rw [leadOnes_cons_one]; omega⟩
        · have hs1 : 1 ≤ s := by omega
          refine Or.inr ⟨s + 1, by rw [ho]; congr 1; omega, Or.inl (by omega), ?_⟩
          rw [IsMaxRun_cons_succ]
          exact ⟨hrun, by omega⟩
      · rintro ⟨hL, hcase⟩
        refine ⟨hL, ?_⟩
        rcases hcase with ⟨hlen1, ho, hlen⟩ | ⟨s, ho, hs, hrun⟩
        · refine Or.inl ⟨by omega, ?_, by rw [leadOnes_cons_one] at hlen; omega⟩
          rw [if_neg (by omega)]
          exact ho
        · rcases Nat.eq_zero_or_pos s with hz | hpos
          · subst hz
            have hlen0 : len = 0 := by omega
            subst hlen0
            rw [IsMaxRun_zero, leadOnes_cons_one] at hrun
            refine Or.inl ⟨by omega, ?_, by omega⟩
            rw [if_pos rfl]
            simpa using ho
          · have hs2 : 2 ≤ s ∨ s = 1 := by omega
            rcases hs2 with hs2 | hs2
            · obtain ⟨s0, rfl⟩ : ∃ s0, s = s0 + 1 := ⟨s - 1, by omega⟩
              rw [IsMaxRun_cons_succ] at hrun
              refine Or.inr ⟨s0, by rw [ho]; congr 1; omega, Or.inl (by omega), hrun.1⟩
            · subst hs2
              rw [show (1 : ℕ) = 0 + 1 by rfl, IsMaxRun_cons_succ] at hrun
              exact absurd rfl (hrun.2 rfl)
    · rw [runsAux, if_neg hc]
      constructor
      · intro hmem
        rw [List.mem_append] at hmem
        rcases hmem with hmem | hmem
        · by_cases h : minLength ≤ len
          · rw [if_pos h] at hmem
            simp only [List.mem_singleton, Prod.mk.injEq] at hmem
            refine ⟨hmem.2 ▸ h, Or.inl ⟨by omega, hmem.1, ?_⟩⟩
            rw [leadOnes_cons_ne c rest hc, hmem.2]
            omega
          · rw [if_neg h] at hmem
            simp at hmem
        · rw [ih] at hmem
          obtain ⟨hL, hcase⟩ := hmem
          refine ⟨hL, ?_⟩
          rcases hcase with ⟨h0, -, -⟩ | ⟨s, ho, -, hrun⟩
          · omega
          · refine Or.inr ⟨s + 1, by rw [ho]; congr 1; omega, Or.inl (by omega), ?_⟩
            rw [IsMaxRun_cons_succ]
            exact ⟨hrun, fun _ => hc⟩
      · rintro ⟨hL, hcase⟩
        rw [List.mem_append]
        rcases hcase with ⟨hlen1, ho, hlen⟩ | ⟨s, ho, hs, hrun⟩
        · refine Or.inl ?_
          rw [leadOnes_cons_ne c rest hc] at hlen
          have : L = len := by omega
          subst this
          rw [if_pos hL]
          simp [ho]
        · rcases Nat.eq_zero_or_pos s with hz | hpos
          · subst hz
            rw [IsMaxRun_zero, leadOnes_cons_ne c rest hc] at hrun
            omega
          · obtain ⟨s0, rfl⟩ : ∃ s0, s = s0 + 1 := ⟨s - 1, by omega⟩
            rw [IsMaxRun_cons_succ] at hrun
            refine Or.inr ?_
            rw [ih]
            exact ⟨hL, Or.inr ⟨s0, by rw [ho]; congr 1; omega, Or.inr rfl, hrun.1⟩⟩

/-- What one scan returns: exactly the maximal runs of ones of length at least
`minLength`, each with its start index recorded. -/
theorem mem_runs (cells : List ℕ) (minLength : ℕ) (hmin : 1 ≤ minLength)
    (o : Option ℕ) (L : ℕ) :
    (o, L) ∈ runs cells minLength ↔
      (minLength ≤ L ∧ ∃ s, o = some s ∧ IsMaxRun cells s L) := by
  rw [runs, mem_runsAux minLength hmin]
  constructor
  · rintro ⟨hL, hcase⟩
    rcases hcase with ⟨h0, -, -⟩ | ⟨s, ho, -, hrun⟩
    · omega
    · exact ⟨hL, s, by simpa using ho, hrun⟩
  · rintro ⟨hL, s, ho, hrun⟩
    exact ⟨hL, Or.inr ⟨s, by simpa using ho, Or.inr rfl, hrun⟩⟩

/-- The points any one scan emits never exceed the number of ones among its
cells: the emitted runs are disjoint stretches of ones. -/
theorem runsAux_sum_le (minLength : ℕ) :
    ∀ (cells : List ℕ) (p len : ℕ) (start : Option ℕ),
      ((runsAux minLength cells p len start).map (fun sl => sl.2)).sum
        ≤ cells.countP (· == 1) + len := by
  intro cells
  induction cells with
  | nil =>
    intro p len start
    rw [runsAux]
    split
    · simp
    · simp
  | cons c rest ih =>
    intro p len start
    by_cases hc : c = 1
    · subst hc
      rw [runsAux, if_pos rfl]
      have := ih (p + 1) (len + 1) (if len = 0 then some p else start)
      rw [List.countP_cons]
      simpa using by omega
    · rw [runsAux, if_neg hc, List.countP_cons]
      have hbeq : ((c == 1) : Bool) = false := by
        simpa using hc
      rw [hbeq]
      have := ih (p + 1) 0 start
      split
      · simpa using by omega
      · simpa using by omega

theorem runs_sum_le (cells : List ℕ) (minLength : ℕ) :
    ((runs cells minLength).map (fun sl => sl.2)).sum ≤ cells.countP (· == 1) := by
  have := runsAux_sum_le minLength cells 0 0 none
  simpa [runs] using this

/-- A diagonal line segment as the source pushes it:
`{ start: {i, j}, length, type: diagonal, k }` (`start` is `null` until a run
opens, hence the `Option`). -/
structure DiagSeg where
  start : Option (ℕ × ℕ)
  length : ℕ
  k : ℤ
deriving DecidableEq

/-- A vertical or horizontal segment: `{ start: {i, j}, length }`. -/
structure Seg where
  start : Option (ℕ × ℕ)
  length : ℕ
deriving DecidableEq

/-- Cells of the upper diagonal `j - i = k` in scan order: `matrix[i][i+k]`
for `i = 0 … n-k-1`. -/
def diagCellsUpper (matrix : List (List ℕ)) (k : ℕ) : List ℕ :=
  (List.range (matrix.length - k)).map fun i => entry matrix i (i + k)

/-- Cells of the lower diagonal `i - j = k` in scan order: `matrix[j+k][j]`
for `j = 0 … n-k-1`. -/
def diagCellsLower (matrix : List (List ℕ)) (k : ℕ) : List ℕ :=
  (List.range (matrix.length - k)).map fun j => entry matrix (j + k) j

/-- Cells of column `j` in scan order. -/
def colCells (matrix : List (List ℕ)) (j : ℕ) : List ℕ :=
  (List.range matrix.length).map fun i => entry matrix i j

/-- Cells of row `i` in scan order. -/
def rowCells (matrix : List (List ℕ)) (i : ℕ) : List ℕ :=
  (List.range matrix.length).map fun j => entry matrix i j

/-- `findDiagonalLines(matrix, minLength)`: all upper diagonals `k = 1 … n-1`
followed by all lower diagonals reported with offset `-k`. -/
def findDiagonalLines (matrix : List (List ℕ)) (minLength : ℕ) : List DiagSeg :=
  ((List.range' 1 (matrix.length - 1)).flatMap fun k =>
    (runs (diagCellsUpper matrix k) minLength).map fun sl =>
      ⟨sl.1.map fun i => (i, i + k), sl.2, (k : ℤ)⟩) ++
  ((List.range' 1 (matrix.length - 1)).flatMap fun k =>
    (runs (diagCellsLower matrix k) minLength).map fun sl =>
      ⟨sl.1.map fun j => (j + k, j), sl.2, -(k : ℤ)⟩)

/-- `findVerticalLines(matrix, minLength)`: column by column, walking down rows. -/
def findVerticalLines (matrix : List (List ℕ)) (minLength : ℕ) : List Seg :=
  (List.range matrix.length).flatMap fun j =>
    (runs (colCells matrix j) minLength).map fun sl =>
      ⟨sl.1.map fun i => (i, j), sl.2⟩

/-- `findHorizontalLines(matrix, minLength)`: row by row, walking across columns. -/
def findHorizontalLines (matrix : List (List ℕ)) (minLength : ℕ) : List Seg :=
  (List.range matrix.length).flatMap fun i =>
    (runs (rowCells matrix i) minLength).map fun sl =>
      ⟨sl.1.map fun j => (i, j), sl.2⟩

theorem mem_findDiagonalLines (matrix : List (List ℕ)) (minLength : ℕ)
    (hmin : 1 ≤ minLength) (seg : DiagSeg) :
    seg ∈ findDiagonalLines matrix minLength ↔
      ((∃ k s L, 1 ≤ k ∧ k < matrix.length ∧ minLength ≤ L ∧
        IsMaxRun (diagCellsUpper matrix k) s L ∧ seg = ⟨some (s, s + k), L, (k : ℤ)⟩) ∨
      (∃ k s L, 1 ≤ k ∧ k < matrix.length ∧ minLength ≤ L ∧
        IsMaxRun (diagCellsLower matrix k) s L ∧ seg = ⟨some (s + k, s), L, -(k : ℤ)⟩)) := by
  rw [findDiagonalLines, List.mem_append]
  constructor
  · intro h
    rcases h with h | h
    · rw [List.mem_flatMap] at h
      obtain ⟨k, hk, h⟩ := h
      rw [List.mem_map] at h
      obtain ⟨⟨o, L⟩, hsl, rfl⟩ := h
      rw [mem_runs _ _ hmin] at hsl
      obtain ⟨hL, s, rfl, hrun⟩ := hsl
      rw [List.mem_range'_1] at hk
      exact Or.inl ⟨k, s, L, hk.1, by omega, hL, hrun, rfl⟩
    · rw [List.mem_flatMap] at h
      obtain ⟨k, hk, h⟩ := h
      rw [List.mem_map] at h
      obtain ⟨⟨o, L⟩, hsl, rfl⟩ := h
      rw [mem_runs _ _ hmin] at hsl
      obtain ⟨hL, s, rfl, hrun⟩ := hsl
      rw [List.mem_range'_1] at hk
      exact Or.inr ⟨k, s, L, hk.1, by omega, hL, hrun, rfl⟩
  · rintro (⟨k, s, L, hk1, hk2, hL, hrun, rfl⟩ | ⟨k, s, L, hk1, hk2, hL, hrun, rfl⟩)
    · refine Or.inl ?_
      rw [List.mem_flatMap]
      refine ⟨k, by rw [List.mem_range'_1]; omega, ?_⟩
      rw [List.mem_map]
      exact ⟨(some s, L), by rw [mem_runs _ _ hmin]; exact ⟨hL, s, rfl, hrun⟩, rfl⟩
    · refine Or.inr ?_
      rw [List.mem_flatMap]
      refine ⟨k, by rw [List.mem_range'_1]; omega, ?_⟩
      rw [List.mem_map]
      exact ⟨(some s, L), by rw [mem_runs _ _ hmin]; exact ⟨hL, s, rfl, hrun⟩, rfl⟩

theorem mem_findVerticalLines (matrix : List (List ℕ)) (minLength : ℕ)
    (hmin : 1 ≤ minLength) (seg : Seg) :
    seg ∈ findVerticalLines matrix minLength ↔
      (∃ j s L, j < matrix.length ∧ minLength ≤ L ∧
        IsMaxRun (colCells matrix j) s L ∧ seg = ⟨some (s, j), L⟩) := by
  rw [findVerticalLines]
  constructor
  · intro h
    rw [List.mem_flatMap] at h
    obtain ⟨j, hj, h⟩ := h
    rw [List.mem_map] at h
    obtain ⟨⟨o, L⟩, hsl, rfl⟩ := h
    rw [mem_runs _ _ hmin] at hsl
    obtain ⟨hL, s, rfl, hrun⟩ := hsl
    rw [List.mem_range] at hj
    exact ⟨j, s, L, hj, hL, hrun, rfl⟩
  · rintro ⟨j, s, L, hj, hL, hrun, rfl⟩
    rw [List.mem_flatMap]
    refine ⟨j, by rw [List.mem_range]; exact hj, ?_⟩
    rw [List.mem_map]
    exact ⟨(some s, L), by rw [mem_runs _ _ hmin]; exact ⟨hL, s, rfl, hrun⟩, rfl⟩

theorem mem_findHorizontalLines (matrix : List (List ℕ)) (minLength : ℕ)
    (hmin : 1 ≤ minLength) (seg : Seg) :
    seg ∈ findHorizontalLines matrix minLength ↔
      (∃ i s L, i < matrix.length ∧ minLength ≤ L ∧
        IsMaxRun (rowCells matrix i) s L ∧ seg = ⟨some (i, s), L⟩) := by
  rw [findHorizontalLines]
  constructor
  · intro h
    rw [List.mem_flatMap] at h
    obtain ⟨i, hi, h⟩ := h
    rw [List.mem_map] at h
    obtain ⟨⟨o, L⟩, hsl, rfl⟩ := h
    rw [mem_runs _ _ hmin] at hsl
    obtain ⟨hL, s, rfl, hrun⟩ := hsl
    rw [List.mem_range] at hi
    exact ⟨i, s, L, hi, hL, hrun, rfl⟩
  · rintro ⟨i, s, L, hi, hL, hrun, rfl⟩
    rw [List.mem_flatMap]
    refine ⟨i, by rw [List.mem_range]; exact hi, ?_⟩
    rw [List.mem_map]
    exact ⟨(some s, L), by rw [mem_runs _ _ hmin]; exact ⟨hL, s, rfl, hrun⟩, rfl⟩

theorem IsMaxRun_length_le (cells : List ℕ) (s L : ℕ) (h : IsMaxRun cells s L) :
    L ≤ cells.length := by
  unfold IsMaxRun at h
  omega

theorem length_diagCellsUpper (matrix : List (List ℕ)) (k : ℕ) :
    (diagCellsUpper matrix k).length = matrix.length - k := by
  simp [diagCellsUpper]

theorem length_diagCellsLower (matrix : List (List ℕ)) (k : ℕ) :
    (diagCellsLower matrix k).length = matrix.length - k := by
  simp [diagCellsLower]

theorem length_colCells (matrix : List (List ℕ)) (j : ℕ) :
    (colCells matrix j).length = matrix.length := by
  simp [colCells]

theorem length_rowCells (matrix : List (List ℕ)) (i : ℕ) :
    (rowCells matrix i).length = matrix.length := by
  simp [rowCells]

/-- C7 (for `minLen ≥ 1`): each line extractor returns exactly the maximal
runs of consecutive 1s of length ≥ `minLen` along its orientation — diagonals
at every signed offset, verticals per column, horizontals per row — and with
`minLen` greater than `n` no segments are returned by any of them. -/
theorem lineExtractors_exact_maximal_runs (matrix : List (List ℕ)) (minLength : ℕ)
    (hmin : 1 ≤ minLength) :
    (∀ seg : DiagSeg, seg ∈ findDiagonalLines matrix minLength ↔
      ((∃ k s L, 1 ≤ k ∧ k < matrix.length ∧ minLength ≤ L ∧
        IsMaxRun (diagCellsUpper matrix k) s L ∧ seg = ⟨some (s, s + k), L, (k : ℤ)⟩) ∨
      (∃ k s L, 1 ≤ k ∧ k < matrix.length ∧ minLength ≤ L ∧
        IsMaxRun (diagCellsLower matrix k) s L ∧ seg = ⟨some (s + k, s), L, -(k : ℤ)⟩))) ∧
    (∀ seg : Seg, seg ∈ findVerticalLines matrix minLength ↔
      (∃ j s L, j < matrix.length ∧ minLength ≤ L ∧
        IsMaxRun (colCells matrix j) s L ∧ seg = ⟨some (s, j), L⟩)) ∧
    (∀ seg : Seg, seg ∈ findHorizontalLines matrix minLength ↔
      (∃ i s L, i < matrix.length ∧ minLength ≤ L ∧
        IsMaxRun (rowCells matrix i) s L ∧ seg = ⟨some (i, s), L⟩)) ∧
    (matrix.length < minLength →
      findDiagonalLines matrix minLength = [] ∧ findVerticalLines matrix minLength = [] ∧
        findHorizontalLines matrix minLength = []) := by
  refine ⟨mem_findDiagonalLines matrix minLength hmin,
    mem_findVerticalLines matrix minLength hmin,
    mem_findHorizontalLines matrix minLength hmin, ?_⟩
  intro hbig
  refine ⟨?_, ?_, ?_⟩
  · rw [List.eq_nil_iff_forall_not_mem]
    intro seg hseg
    rw [mem_findDiagonalLines matrix minLength hmin] at hseg
    rcases hseg with ⟨k, s, L, -, -, hL, hrun, -⟩ | ⟨k, s, L, -, -, hL, hrun, -⟩
    · have := IsMaxRun_length_le _ _ _ hrun
      rw [length_diagCellsUpper] at this
      omega
    · have := IsMaxRun_length_le _ _ _ hrun
      rw [length_diagCellsLower] at this
      omega
  · rw [List.eq_nil_iff_forall_not_mem]
    intro seg hseg
    rw [mem_findVerticalLines matrix minLength hmin] at hseg
    obtain ⟨j, s, L, -, hL, hrun, -⟩ := hseg
    have := IsMaxRun_length_le _ _ _ hrun
    rw [length_colCells] at this
    omega
  · rw [List.eq_nil_iff_forall_not_mem]
    intro seg hseg
    rw [mem_findHorizontalLines matrix minLength hmin] at hseg
    obtain ⟨i, s, L, -, hL, hrun, -⟩ := hseg
    have := IsMaxRun_length_le _ _ _ hrun
    rw [length_rowCells] at this
    omega

/-- C7 witness: on the concrete 2×2 all-ones matrix with `minLen = 3 > n = 2`
every extractor returns no segments, by the theorem instantiated there. -/
theorem lineExtractors_exact_maximal_runs_witness :
    findDiagonalLines [[1, 1], [1, 1]] 3 = [] ∧ findVerticalLines [[1, 1], [1, 1]] 3 = [] ∧
      findHorizontalLines [[1, 1], [1, 1]] 3 = [] :=
  (lineExtractors_exact_maximal_runs [[1, 1], [1, 1]] 3 (by norm_num)).2.2.2 (by norm_num)

/-- C7 counterexample at `minLen = 0` (the claim quantifies over every
`minLen`): on the 1×1 zero matrix, which contains no run of 1s at all, the
vertical scan emits two zero-length segments (with `null` start) — one when
the 0 cell terminates the empty pending run and one at the end of the scan —
so the extractor's output is not exactly the set of maximal runs of 1s. -/
theorem lineExtractors_minLen_zero_cex :
    (findVerticalLines [[0]] 0).length = 2 ∧
      (∀ seg ∈ findVerticalLines [[0]] 0, seg.length = 0 ∧ seg.start = none) ∧
      (∀ i j, entry [[0]] i j ≠ 1) := by
  refine ⟨by decide, by decide, ?_⟩
  intro i j
  match i with
  | 0 =>
    match j with
    | 0 => decide
    | j + 1 => simp [entry]
  | i + 1 => simp [entry]

/-! ## RQA invariant calculator (`rqaMeasures`, RQAVisualization.jsx 243-354) -/

/-- JS division: a zero denominator yields `NaN` (or `Infinity`), a non-finite
value, modelled as `none`; otherwise the exact quotient. -/
def jsDiv (a b : ℚ) : Option ℚ := if b = 0 then none else some (a / b)

/-- Count of `matrix[i][j] === 1` over all `i, j < n` (first counting loop of
`rqaMeasures`). -/
def allRecurrentPoints (matrix : List (List ℕ)) : ℕ :=
  ((List.range matrix.length).map fun i =>
    (List.range matrix.length).countP fun j => entry matrix i j == 1).sum

/-- Count of recurrent points off the main diagonal (`i !== j`), the source's
`recurrentPointsExcludingLOI`. -/
def recurrentPointsExcludingLOI (matrix : List (List ℕ)) : ℕ :=
  ((List.range matrix.length).map fun i =>
    (List.range matrix.length).countP fun j => !(i == j) && (entry matrix i j == 1)).sum

/-- Count of recurrent points in the strict upper triangle (`j > i`), the
source's `upperTriangleRecurrentPoints`. -/
def upperTriangleRecurrentPoints (matrix : List (List ℕ)) : ℕ :=
  ((List.range matrix.length).map fun i =>
    (List.range matrix.length).countP fun j => decide (i < j) && (entry matrix i j == 1)).sum

/-- The source's `upperDiagLines = diagonalLines.filter(line => line.k > 0)`. -/
def upperDiagLines (matrix : List (List ℕ)) (minLength : ℕ) : List DiagSeg :=
  (findDiagonalLines matrix minLength).filter fun line => decide (0 < line.k)

/-- Shannon entropy (natural log) of the diagonal length distribution, as the
histogram loop of `rqaMeasures` computes it: one term per distinct length. -/
noncomputable def diagEntropy (lengths : List ℕ) : ℝ :=
  if 0 < lengths.length then
    -((lengths.dedup.map fun v =>
      if 0 < ((lengths.count v : ℝ) / (lengths.length : ℝ)) then
        ((lengths.count v : ℝ) / (lengths.length : ℝ))
          * Real.log ((lengths.count v : ℝ) / (lengths.length : ℝ))
      else 0).sum)
  else 0

/-- The invariants returned by `rqaMeasures` (the JS object also returns the
raw diagnostic counters, which are the standalone definitions above). -/
structure RQAMeasures where
  RR : Option ℚ
  DET : ℚ
  LAM : ℚ
  avgDiagLength : ℚ
  avgVertLength : ℚ
  maxDiagLength : ℕ
  entropy : ℝ

/-- `rqaMeasures`: RR over all `n²` cells (unguarded JS division), DET from
upper-triangle diagonal lines over upper-triangle recurrent points, LAM from
vertical lines over all recurrent points, the mean/max diagonal and mean
vertical line lengths, and the diagonal length entropy; every guarded ratio
defaults to 0 exactly where the source writes `… > 0 ? … : 0`. -/
noncomputable def rqaMeasures (matrix : List (List ℕ)) (minLength : ℕ) : RQAMeasures :=
  { RR := jsDiv (allRecurrentPoints matrix : ℚ)
      ((matrix.length * matrix.length : ℕ) : ℚ)
    DET := if 0 < upperTriangleRecurrentPoints matrix then
        ((((upperDiagLines matrix minLength).map fun line => line.length).sum : ℕ) : ℚ)
          / (upperTriangleRecurrentPoints matrix : ℚ) else 0
    LAM := if 0 < allRecurrentPoints matrix then
        ((((findVerticalLines matrix minLength).map fun seg => seg.length).sum : ℕ) : ℚ)
          / (allRecurrentPoints matrix : ℚ) else 0
    avgDiagLength := if 0 < (upperDiagLines matrix minLength).length then
        ((((upperDiagLines matrix minLength).map fun line => line.length).sum : ℕ) : ℚ)
          / ((upperDiagLines matrix minLength).length : ℚ) else 0
    avgVertLength := if 0 < (findVerticalLines matrix minLength).length then
        ((((findVerticalLines matrix minLength).map fun seg => seg.length).sum : ℕ) : ℚ)
          / ((findVerticalLines matrix minLength).length : ℚ) else 0
    maxDiagLength := if 0 < (upperDiagLines matrix minLength).length then
        ((upperDiagLines matrix minLength).map fun line => line.length).foldr max 0 else 0
    entropy := diagEntropy ((upperDiagLines matrix minLength).map fun line => line.length) }

theorem list_sum_flatMap {α : Type} (l : List α) (f : α → List ℕ) :
    (l.flatMap f).sum = (l.map fun a => (f a).sum).sum := by
  induction l with
  | nil => rfl
  | cons a t ih => simp [List.flatMap_cons, ih]

theorem countP_list_range (n : ℕ) (p : ℕ → Bool) :
    (List.range n).countP p = ∑ i ∈ Finset.range n, if p i then 1 else 0 := by
  induction n with
  | zero => rfl
  | succ n ih =>
    rw [List.range_succ, List.countP_append, Finset.sum_range_succ, ih]
    simp [List.countP_cons]

theorem sum_list_range_map (n : ℕ) (f : ℕ → ℕ) :
    ((List.range n).map f).sum = ∑ i ∈ Finset.range n, f i := by
  induction n with
  | zero => rfl
  | succ n ih =>
    rw [List.range_succ, List.map_append, List.sum_append, Finset.sum_range_succ, ih]
    simp

/-- The vertical-line points never exceed the total number of recurrent
points: one scan per column collects disjoint stretches of ones. -/
theorem vertPoints_le_allRecurrentPoints (matrix : List (List ℕ)) (minLength : ℕ) :
    ((findVerticalLines matrix minLength).map fun seg => seg.length).sum
      ≤ allRecurrentPoints matrix := by
  rw [findVerticalLines, List.map_flatMap, list_sum_flatMap]
  have hpoint : ∀ j ∈ List.range matrix.length,
      ((((runs (colCells matrix j) minLength).map fun sl =>
          (⟨sl.1.map fun i => (i, j), sl.2⟩ : Seg)).map fun seg => seg.length)).sum
        ≤ (colCells matrix j).countP (· == 1) := by
    intro j _
    rw [List.map_map]
    exact runs_sum_le (colCells matrix j) minLength
  calc ((List.range matrix.length).map fun j =>
        (((runs (colCells matrix j) minLength).map fun sl =>
          (⟨sl.1.map fun i => (i, j), sl.2⟩ : Seg)).map fun seg => seg.length).sum).sum
      ≤ ((List.range matrix.length).map fun j => (colCells matrix j).countP (· == 1)).sum :=
        List.sum_le_sum hpoint
    _ = allRecurrentPoints matrix := by
        rw [allRecurrentPoints, sum_list_range_map, sum_list_range_map]
        have hcol : ∀ j, (colCells matrix j).countP (· == 1)
            = (List.range matrix.length).countP fun i => entry matrix i j == 1 := by
          intro j
          rw [colCells, List.countP_map]
          rfl
        simp_rw [hcol, countP_list_range]
        exact Finset.sum_comm

/-- Reindexing the strict upper triangle by diagonals. -/
theorem sum_diag_eq_sum_upper_triangle (n : ℕ) (h : ℕ → ℕ → ℕ) :
    (∑ a ∈ Finset.range (n - 1), ∑ i ∈ Finset.range (n - (1 + a)), h i (i + (1 + a)))
      = ∑ i ∈ Finset.range n, ∑ j ∈ Finset.range n, if i < j then h i j else 0 := by
  have hdrop : (∑ a ∈ Finset.range (n - 1), ∑ i ∈ Finset.range (n - (1 + a)), h i (i + (1 + a)))
      = ∑ a ∈ Finset.range n, ∑ i ∈ Finset.range (n - (1 + a)), h i (i + (1 + a)) := by
    apply Finset.sum_subset
    · apply Finset.range_subset.mpr
      omega
    · intro a _ ha
      rw [Finset.mem_range] at ha
      have : n - (1 + a) = 0 := by omega
      rw [this]
      simp
  have hinner : ∀ a, (∑ i ∈ Finset.range (n - (1 + a)), h i (i + (1 + a)))
      = ∑ i ∈ Finset.range n, if i + (1 + a) < n then h i (i + (1 + a)) else 0 := by
    intro a
    rw [← Finset.sum_filter]
    apply Finset.sum_congr
    · ext i
      simp only [Finset.mem_filter, Finset.mem_range]
      omega
    · intro i _
      rfl
  have hL : (∑ a ∈ Finset.range n, ∑ i ∈ Finset.range n,
        if i + (1 + a) < n then h i (i + (1 + a)) else 0)
      = ∑ x ∈ (Finset.range n ×ˢ Finset.range n).filter fun x => x.2 + (1 + x.1) < n,
          h x.2 (x.2 + (1 + x.1)) := by
    rw [Finset.sum_filter]
    exact (Finset.sum_product' (Finset.range n) (Finset.range n)
      (fun a i => if i + (1 + a) < n then h i (i + (1 + a)) else 0)).symm
  have hR : (∑ i ∈ Finset.range n, ∑ j ∈ Finset.range n, if i < j then h i j else 0)
      = ∑ y ∈ (Finset.range n ×ˢ Finset.range n).filter fun y => y.1 < y.2,
          h y.1 y.2 := by
    rw [Finset.sum_filter]
    exact (Finset.sum_product' (Finset.range n) (Finset.range n)
      (fun i j => if i < j then h i j else 0)).symm
  rw [hdrop]
  simp_rw [hinner]
  rw [hL, hR]
  refine Finset.sum_nbij' (fun x => (x.2, x.2 + (1 + x.1))) (fun y => (y.2 - y.1 - 1, y.1))
    ?_ ?_ ?_ ?_ ?_
  · rintro ⟨a, i⟩ hx
    simp only [Finset.mem_filter, Finset.mem_product, Finset.mem_range] at hx ⊢
    omega
  · rintro ⟨i, j⟩ hy
    simp only [Finset.mem_filter, Finset.mem_product, Finset.mem_range] at hy ⊢
    omega
  · rintro ⟨a, i⟩ hx
    simp only [Finset.mem_filter, Finset.mem_product, Finset.mem_range] at hx
    exact Prod.ext (by dsimp only; omega) rfl
  · rintro ⟨i, j⟩ hy
    simp only [Finset.mem_filter, Finset.mem_product, Finset.mem_range] at hy
    exact Prod.ext rfl (by dsimp only; omega)
  · rintro ⟨a, i⟩ hx
    rfl

/-- The upper-triangle diagonal-line points never exceed the number of
upper-triangle recurrent points. -/
theorem upperPoints_le_upperTriangle (matrix : List (List ℕ)) (minLength : ℕ) :
    ((upperDiagLines matrix minLength).map fun seg => seg.length).sum
      ≤ upperTriangleRecurrentPoints matrix := by
  have hfilter : upperDiagLines matrix minLength
      = (List.range' 1 (matrix.length - 1)).flatMap fun k =>
        (runs (diagCellsUpper matrix k) minLength).map fun sl =>
          (⟨sl.1.map fun i => (i, i + k), sl.2, (k : ℤ)⟩ : DiagSeg) := by
    rw [upperDiagLines, findDiagonalLines, List.filter_append]
    have h1 : ((List.range' 1 (matrix.length - 1)).flatMap fun k =>
        (runs (diagCellsUpper matrix k) minLength).map fun sl =>
          (⟨sl.1.map fun i => (i, i + k), sl.2, (k : ℤ)⟩ : DiagSeg)).filter
            (fun line => decide (0 < line.k)) = _ := List.filter_eq_self.mpr ?_
    · rw [h1]
      have h2 : ((List.range' 1 (matrix.length - 1)).flatMap fun k =>
          (runs (diagCellsLower matrix k) minLength).map fun sl =>
            (⟨sl.1.map fun j => (j + k, j), sl.2, -(k : ℤ)⟩ : DiagSeg)).filter
              (fun line => decide (0 < line.k)) = [] := by
        rw [List.filter_eq_nil_iff]
        intro seg hseg
        rw [List.mem_flatMap] at hseg
        obtain ⟨k, hk, hseg⟩ := hseg
        rw [List.mem_map] at hseg
        obtain ⟨sl, -, rfl⟩ := hseg
        rw [List.mem_range'_1] at hk
        simp only [decide_eq_true_eq]
        omega
      rw [h2, List.append_nil]
    · intro seg hseg
      rw [List.mem_flatMap] at hseg
      obtain ⟨k, hk, hseg⟩ := hseg
      rw [List.mem_map] at hseg
      obtain ⟨sl, -, rfl⟩ := hseg
      rw [List.mem_range'_1] at hk
      simp only [decide_eq_true_eq]
      omega
  rw [hfilter, List.map_flatMap, list_sum_flatMap]
  have hpoint : ∀ k ∈ List.range' 1 (matrix.length - 1),
      (((runs (diagCellsUpper matrix k) minLength).map fun sl =>
          (⟨sl.1.map fun i => (i, i + k), sl.2, (k : ℤ)⟩ : DiagSeg)).map
            fun seg => seg.length).sum
        ≤ (diagCellsUpper matrix k).countP (· == 1) := by
    intro k _
    rw [List.map_map]
    exact runs_sum_le (diagCellsUpper matrix k) minLength
  calc ((List.range' 1 (matrix.length - 1)).map fun k =>
        (((runs (diagCellsUpper matrix k) minLength).map fun sl =>
          (⟨sl.1.map fun i => (i, i + k), sl.2, (k : ℤ)⟩ : DiagSeg)).map
            fun seg => seg.length).sum).sum
      ≤ ((List.range' 1 (matrix.length - 1)).map fun k =>
          (diagCellsUpper matrix k).countP (· == 1)).sum := List.sum_le_sum hpoint
    _ = upperTriangleRecurrentPoints matrix := by
        have hdiag : ∀ k, (diagCellsUpper matrix k).countP (· == 1)
            = (List.range (matrix.length - k)).countP fun i => entry matrix i (i + k) == 1 := by
          intro k
          rw [diagCellsUpper, List.countP_map]
          rfl
        rw [List.range'_eq_map_range, List.map_map]
        simp_rw [hdiag]
        rw [sum_list_range_map]
        rw [upperTriangleRecurrentPoints, sum_list_range_map]
        simp only [Function.comp_apply]
        have hstep := sum_diag_eq_sum_upper_triangle matrix.length
          (fun i j => if (entry matrix i j == 1) then 1 else 0)
        have hlhs : (∑ a ∈ Finset.range (matrix.length - 1),
              (List.range (matrix.length - (1 + a))).countP
                fun i => entry matrix i (i + (1 + a)) == 1)
            = ∑ a ∈ Finset.range (matrix.length - 1),
                ∑ i ∈ Finset.range (matrix.length - (1 + a)),
                  if (entry matrix i (i + (1 + a)) == 1) then 1 else 0 := by
          apply Finset.sum_congr rfl
          intro a _
          rw [countP_list_range]
        have hrhs : (∑ i ∈ Finset.range matrix.length,
              (List.range matrix.length).countP fun j =>
                decide (i < j) && (entry matrix i j == 1))
            = ∑ i ∈ Finset.range matrix.length, ∑ j ∈ Finset.range matrix.length,
                if i < j then (if (entry matrix i j == 1) then 1 else 0) else 0 := by
          apply Finset.sum_congr rfl
          intro i _
          rw [countP_list_range]
          apply Finset.sum_congr rfl
          intro j _
          by_cases hij : i < j
          · have hd : decide (i < j) = true := by simpa using hij
            rw [hd, if_pos hij]
            simp
          · have hd : decide (i < j) = false := by simpa using hij
            rw [hd, if_neg hij]
            simp
        calc (∑ a ∈ Finset.range (matrix.length - 1),
              (List.range (matrix.length - (1 + a))).countP
                fun i => entry matrix i (i + (1 + a)) == 1)
            = ∑ a ∈ Finset.range (matrix.length - 1),
                ∑ i ∈ Finset.range (matrix.length - (1 + a)),
                  if (entry matrix i (i + (1 + a)) == 1) then 1 else 0 := hlhs
          _ = ∑ i ∈ Finset.range matrix.length, ∑ j ∈ Finset.range matrix.length,
                if i < j then (if (entry matrix i j == 1) then 1 else 0) else 0 := hstep
          _ = ∑ i ∈ Finset.range matrix.length,
                (List.range matrix.length).countP fun j =>
                  decide (i < j) && (entry matrix i j == 1) := hrhs.symm

theorem allRecurrentPoints_le (matrix : List (List ℕ)) :
    allRecurrentPoints matrix ≤ matrix.length * matrix.length := by
  rw [allRecurrentPoints]
  calc ((List.range matrix.length).map fun i =>
        (List.range matrix.length).countP fun j => entry matrix i j == 1).sum
      ≤ ((List.range matrix.length).map fun _ => matrix.length).sum := by
        apply List.sum_le_sum
        intro i _
        calc (List.range matrix.length).countP (fun j => entry matrix i j == 1)
            ≤ (List.range matrix.length).length := List.countP_le_length _
          _ = matrix.length := List.length_range matrix.length
    _ = matrix.length * matrix.length := by
        rw [sum_list_range_map]
        simp [Finset.sum_const, Finset.card_range, smul_eq_mul]

/-- C2: for every binary square recurrence matrix with `n ≥ 1` and line
segments extracted with `minLen ≥ 2`, the RQA computation returns RR, DET and
LAM each inside the closed interval `[0, 1]` (RR being a finite number since
`n ≥ 1`). -/
theorem rqa_RR_DET_LAM_in_unit_interval (matrix : List (List ℕ)) (minLength : ℕ)
    (hn : 1 ≤ matrix.length) (hmin : 2 ≤ minLength)
    (hsq : ∀ row ∈ matrix, row.length = matrix.length)
    (hbin : ∀ i < matrix.length, ∀ j < matrix.length,
      entry matrix i j = 0 ∨ entry matrix i j = 1) :
    (∃ q, (rqaMeasures matrix minLength).RR = some q ∧ 0 ≤ q ∧ q ≤ 1) ∧
    (0 ≤ (rqaMeasures matrix minLength).DET ∧ (rqaMeasures matrix minLength).DET ≤ 1) ∧
    (0 ≤ (rqaMeasures matrix minLength).LAM ∧ (rqaMeasures matrix minLength).LAM ≤ 1) := by
  have hRR : (rqaMeasures matrix minLength).RR
      = jsDiv (allRecurrentPoints matrix : ℚ) ((matrix.length * matrix.length : ℕ) : ℚ) := rfl
  have hDET : (rqaMeasures matrix minLength).DET
      = if 0 < upperTriangleRecurrentPoints matrix then
          ((((upperDiagLines matrix minLength).map fun line => line.length).sum : ℕ) : ℚ)
            / (upperTriangleRecurrentPoints matrix : ℚ) else 0 := rfl
  have hLAM : (rqaMeasures matrix minLength).LAM
      = if 0 < allRecurrentPoints matrix then
          ((((findVerticalLines matrix minLength).map fun seg => seg.length).sum : ℕ) : ℚ)
            / (allRecurrentPoints matrix : ℚ) else 0 := rfl
  refine ⟨?_, ?_, ?_⟩
  · have hne : ((matrix.length * matrix.length : ℕ) : ℚ) ≠ 0 := by
      have : matrix.length * matrix.length ≠ 0 := Nat.mul_ne_zero (by omega) (by omega)
      exact_mod_cast this
    have hpos : (0 : ℚ) < ((matrix.length * matrix.length : ℕ) : ℚ) := by
      have : 0 < matrix.length * matrix.length := Nat.mul_pos (by omega) (by omega)
      exact_mod_cast this
    refine ⟨(allRecurrentPoints matrix : ℚ) / ((matrix.length * matrix.length : ℕ) : ℚ),
      ?_, ?_, ?_⟩
    · rw [hRR, jsDiv, if_neg hne]
    · positivity
    · rw [div_le_one hpos]
      exact_mod_cast allRecurrentPoints_le matrix
  · by_cases hpos : 0 < upperTriangleRecurrentPoints matrix
    · rw [hDET, if_pos hpos]
      constructor
      · positivity
      · rw [div_le_one (by exact_mod_cast hpos)]
        exact_mod_cast upperPoints_le_upperTriangle matrix minLength
    · rw [hDET, if_neg hpos]
      norm_num
  · by_cases hpos : 0 < allRecurrentPoints matrix
    · rw [hLAM, if_pos hpos]
      constructor
      · positivity
      · rw [div_le_one (by exact_mod_cast hpos)]
        exact_mod_cast vertPoints_le_allRecurrentPoints matrix minLength
    · rw [hLAM, if_neg hpos]
      norm_num

/-- C2 witness: the theorem instantiated on the 1×1 identity matrix with
`minLen = 2`. -/
theorem rqa_RR_DET_LAM_in_unit_interval_witness :
    (∃ q, (rqaMeasures [[1]] 2).RR = some q ∧ 0 ≤ q ∧ q ≤ 1) ∧
    (0 ≤ (rqaMeasures [[1]] 2).DET ∧ (rqaMeasures [[1]] 2).DET ≤ 1) ∧
    (0 ≤ (rqaMeasures [[1]] 2).LAM ∧ (rqaMeasures [[1]] 2).LAM ≤ 1) :=
  rqa_RR_DET_LAM_in_unit_interval [[1]] 2 (by norm_num) (by norm_num)
    (by decide) (by decide)

/-- C3 counterexample: on the empty 0×0 recurrence matrix (which
`computeRecurrenceMatrix` produces whenever `N ≤ (m-1)τ`) the source computes
`RR = allRecurrentPoints / totalPoints = 0 / 0`, which in JS is `NaN` — a
non-numeric value, not the claimed default 0.  The RR division is the one
ratio of `rqaMeasures` that carries no zero-denominator guard. -/
theorem rqa_empty_matrix_RR_NaN_cex :
    (rqaMeasures ([] : List (List ℕ)) 2).RR = none ∧ jsDiv 0 0 = none := by
  constructor
  · rfl
  · rfl

/-- C3 (amended): every guarded invariant resolves to a defined numeric value,
each guarded zero-denominator ratio defaulting to 0 — on a degenerate matrix
DET, LAM, L, TT, L_max, ENTR are all 0 — and RR is a finite number for every
nonempty matrix; but on the empty 0×0 matrix RR itself is the unguarded
`0 / 0`, i.e. `NaN`. -/
theorem rqa_degenerate_defaults (matrix : List (List ℕ)) (minLength : ℕ) :
    (1 ≤ matrix.length → ∃ q, (rqaMeasures matrix minLength).RR = some q) ∧
    (upperTriangleRecurrentPoints matrix = 0 → (rqaMeasures matrix minLength).DET = 0) ∧
    (allRecurrentPoints matrix = 0 → (rqaMeasures matrix minLength).LAM = 0) ∧
    (upperDiagLines matrix minLength = [] →
      (rqaMeasures matrix minLength).avgDiagLength = 0 ∧
      (rqaMeasures matrix minLength).maxDiagLength = 0 ∧
      (rqaMeasures matrix minLength).entropy = 0) ∧
    (findVerticalLines matrix minLength = [] →
      (rqaMeasures matrix minLength).avgVertLength = 0) ∧
    (matrix = [] → (rqaMeasures matrix minLength).RR = none) := by
  refine ⟨?_, ?_, ?_, ?_, ?_, ?_⟩
  · intro hn
    have hne : ((matrix.length * matrix.length : ℕ) : ℚ) ≠ 0 := by
      have : matrix.length * matrix.length ≠ 0 := Nat.mul_ne_zero (by omega) (by omega)
      exact_mod_cast this
    refine ⟨(allRecurrentPoints matrix : ℚ) / ((matrix.length * matrix.length : ℕ) : ℚ), ?_⟩
    show jsDiv _ _ = _
    rw [jsDiv, if_neg hne]
  · intro h
    show (if 0 < upperTriangleRecurrentPoints matrix then _ else 0) = 0
    rw [if_neg (by omega)]
  · intro h
    show (if 0 < allRecurrentPoints matrix then _ else 0) = 0
    rw [if_neg (by omega)]
  · intro h
    refine ⟨?_, ?_, ?_⟩
    · show (if 0 < (upperDiagLines matrix minLength).length then _ else 0) = 0
      rw [if_neg (by rw [h]; simp)]
    · show (if 0 < (upperDiagLines matrix minLength).length then _ else 0) = 0
      rw [if_neg (by rw [h]; simp)]
    · show diagEntropy ((upperDiagLines matrix minLength).map fun line => line.length) = 0
      rw [h]
      rw [diagEntropy]
      simp
  · intro h
    show (if 0 < (findVerticalLines matrix minLength).length then _ else 0) = 0
    rw [if_neg (by rw [h]; simp)]
  · intro h
    subst h
    rfl

theorem recEntry_le_one (d t : ℚ) : recEntry d t ≤ 1 := by
  rw [recEntry]
  split <;> omega

theorem recEntry_mono (d t1 t2 : ℚ) (h : t1 ≤ t2) : recEntry d t1 ≤ recEntry d t2 := by
  rw [recEntry, recEntry]
  by_cases h1 : 0 ≤ t1 ∧ d ≤ t1 ^ 2
  · rw [if_pos h1, if_pos ⟨le_trans h1.1 h, le_trans h1.2 (pow_le_pow_left₀ h1.1 h 2)⟩]
  · rw [if_neg h1]
    split <;> omega

theorem entry_computeRecurrenceMatrix_le_one (signal : List ℚ) (threshold : ℚ)
    (embeddingDim delay : ℕ) (i j : ℕ) :
    entry (computeRecurrenceMatrix signal threshold embeddingDim delay) i j ≤ 1 := by
  rcases lt_or_le i (numVectors signal.length embeddingDim delay) with hi | hi
  · rcases lt_or_le j (numVectors signal.length embeddingDim delay) with hj | hj
    · rw [entry_computeRecurrenceMatrix signal threshold embeddingDim delay i j hi hj]
      exact recEntry_le_one _ _
    · rw [entry_computeRecurrenceMatrix_col_ge signal threshold embeddingDim delay i j hj]
      omega
  · rw [entry_computeRecurrenceMatrix_row_ge signal threshold embeddingDim delay i j hi]
    omega

/-- C5: with the signal, embedding dimension and delay fixed and `ε1 ≤ ε2`,
every recurrence-matrix entry at `ε1` is at most the corresponding entry at
`ε2`, and the recurrence rate RR at `ε1` is at most the RR at `ε2` (whenever
both are defined numbers). -/
theorem recurrence_monotone_in_threshold (signal : List ℚ) (e1 e2 : ℚ)
    (embeddingDim delay minLength : ℕ) (h12 : e1 ≤ e2) :
    (∀ i j, entry (computeRecurrenceMatrix signal e1 embeddingDim delay) i j
        ≤ entry (computeRecurrenceMatrix signal e2 embeddingDim delay) i j) ∧
    (∀ q1 q2,
      (rqaMeasures (computeRecurrenceMatrix signal e1 embeddingDim delay) minLength).RR
          = some q1 →
      (rqaMeasures (computeRecurrenceMatrix signal e2 embeddingDim delay) minLength).RR
          = some q2 →
      q1 ≤ q2) := by
  have hmono : ∀ i j, entry (computeRecurrenceMatrix signal e1 embeddingDim delay) i j
      ≤ entry (computeRecurrenceMatrix signal e2 embeddingDim delay) i j := by
    intro i j
    rcases lt_or_le i (numVectors signal.length embeddingDim delay) with hi | hi
    · rcases lt_or_le j (numVectors signal.length embeddingDim delay) with hj | hj
      · rw [entry_computeRecurrenceMatrix signal e1 embeddingDim delay i j hi hj,
          entry_computeRecurrenceMatrix signal e2 embeddingDim delay i j hi hj]
        exact recEntry_mono _ e1 e2 h12
      · rw [entry_computeRecurrenceMatrix_col_ge signal e1 embeddingDim delay i j hj]
        omega
    · rw [entry_computeRecurrenceMatrix_row_ge signal e1 embeddingDim delay i j hi]
      omega
  refine ⟨hmono, ?_⟩
  intro q1 q2 h1 h2
  have hlen : (computeRecurrenceMatrix signal e1 embeddingDim delay).length
      = (computeRecurrenceMatrix signal e2 embeddingDim delay).length := by
    rw [length_computeRecurrenceMatrix, length_computeRecurrenceMatrix]
  have hcount : allRecurrentPoints (computeRecurrenceMatrix signal e1 embeddingDim delay)
      ≤ allRecurrentPoints (computeRecurrenceMatrix signal e2 embeddingDim delay) := by
    rw [allRecurrentPoints, allRecurrentPoints, ← hlen]
    apply List.sum_le_sum
    intro i _
    apply List.countP_mono_left
    intro j _ hj
    have h1j : entry (computeRecurrenceMatrix signal e1 embeddingDim delay) i j = 1 := by
      simpa using hj
    have hle := hmono i j
    have hle1 := entry_computeRecurrenceMatrix_le_one signal e2 embeddingDim delay i j
    simp only [beq_iff_eq]
    omega
  rw [show (rqaMeasures (computeRecurrenceMatrix signal e1 embeddingDim delay) minLength).RR
      = jsDiv (allRecurrentPoints (computeRecurrenceMatrix signal e1 embeddingDim delay) : ℚ)
        (((computeRecurrenceMatrix signal e1 embeddingDim delay).length
          * (computeRecurrenceMatrix signal e1 embeddingDim delay).length : ℕ) : ℚ) from rfl,
    jsDiv] at h1
  rw [show (rqaMeasures (computeRecurrenceMatrix signal e2 embeddingDim delay) minLength).RR
      = jsDiv (allRecurrentPoints (computeRecurrenceMatrix signal e2 embeddingDim delay) : ℚ)
        (((computeRecurrenceMatrix signal e2 embeddingDim delay).length
          * (computeRecurrenceMatrix signal e2 embeddingDim delay).length : ℕ) : ℚ) from rfl,
    jsDiv] at h2
  by_cases hz : (((computeRecurrenceMatrix signal e1 embeddingDim delay).length
      * (computeRecurrenceMatrix signal e1 embeddingDim delay).length : ℕ) : ℚ) = 0
  · rw [if_pos hz] at h1
    exact absurd h1 (by simp)
  · rw [if_neg hz] at h1
    rw [if_neg (by rw [← hlen]; exact hz)] at h2
    have hq1 : q1 = (allRecurrentPoints (computeRecurrenceMatrix signal e1 embeddingDim delay) : ℚ)
        / (((computeRecurrenceMatrix signal e1 embeddingDim delay).length
          * (computeRecurrenceMatrix signal e1 embeddingDim delay).length : ℕ) : ℚ) := by
      exact (Option.some.injEq _ _ ▸ h1).symm
    have hq2 : q2 = (allRecurrentPoints (computeRecurrenceMatrix signal e2 embeddingDim delay) : ℚ)
        / (((computeRecurrenceMatrix signal e2 embeddingDim delay).length
          * (computeRecurrenceMatrix signal e2 embeddingDim delay).length : ℕ) : ℚ) := by
      exact (Option.some.injEq _ _ ▸ h2).symm
    rw [hq1, hq2, ← hlen]
    have hposq : (0 : ℚ) < (((computeRecurrenceMatrix signal e1 embeddingDim delay).length
        * (computeRecurrenceMatrix signal e1 embeddingDim delay).length : ℕ) : ℚ) := by
      rcases lt_or_eq_of_le (Nat.cast_nonneg _ : (0 : ℚ) ≤ _) with h | h
      · exact h
      · exact absurd h.symm hz
    exact div_le_div_of_nonneg_right (by exact_mod_cast hcount) hposq.le
      |>.trans_eq rfl

/-- C5 witness: the monotonicity theorem instantiated on the signal `[0, 1]`
with thresholds `1/4 ≤ 1/2`, `m = 1`, `τ = 1`, `minLen = 2`. -/
theorem recurrence_monotone_in_threshold_witness :
    (∀ i j, entry (computeRecurrenceMatrix [0, 1] (1/4) 1 1) i j
        ≤ entry (computeRecurrenceMatrix [0, 1] (1/2) 1 1) i j) ∧
    (∀ q1 q2,
      (rqaMeasures (computeRecurrenceMatrix [0, 1] (1/4) 1 1) 2).RR = some q1 →
      (rqaMeasures (computeRecurrenceMatrix [0, 1] (1/2) 1 1) 2).RR = some q2 →
      q1 ≤ q2) :=
  recurrence_monotone_in_threshold [0, 1] (1/4) (1/2) 1 1 2 (by norm_num)

theorem numVectors_eq (N m τ : ℕ) (hm : 1 ≤ m) : numVectors N m τ = N - (m - 1) * τ := by
  rw [numVectors]
  have h1 : ((m : ℤ) - 1) = ((m - 1 : ℕ) : ℤ) := by omega
  rw [h1, ← Nat.cast_mul]
  omega

/-- C6: for `m ≥ 1`, `τ ≥ 1` and `N > (m-1)τ`, the embedding stage produces
exactly `N - (m-1)τ` vectors, the `i`-th being
`(x_i, x_{i+τ}, …, x_{i+(m-1)τ})`, every coordinate read in bounds (no padding
or wraparound); and with `m = 1` the embedded vectors are exactly the original
samples, in order, as single-element vectors. -/
theorem embedding_exact (signal : List ℚ) (m τ : ℕ) (hm : 1 ≤ m) (hτ : 1 ≤ τ)
    (hN : (m - 1) * τ < signal.length) :
    (embedVectors signal m τ).length = signal.length - (m - 1) * τ ∧
    (∀ i, i < signal.length - (m - 1) * τ →
      (embedVectors signal m τ).getD i []
        = (List.range m).map fun d => signal.getD (i + d * τ) 0) ∧
    (∀ i d, i < signal.length - (m - 1) * τ → d < m → i + d * τ < signal.length) ∧
    embedVectors signal 1 τ = signal.map fun x => [x] := by
  have hnum : numVectors signal.length m τ = signal.length - (m - 1) * τ :=
    numVectors_eq signal.length m τ hm
  refine ⟨?_, ?_, ?_, ?_⟩
  · rw [embedVectors, List.length_map, List.length_range, hnum]
  · intro i hi
    exact getD_of_range_map _ _ _ i (by rw [hnum]; exact hi)
  · intro i d hi hd
    have h1 : d * τ ≤ (m - 1) * τ := Nat.mul_le_mul_right τ (by omega)
    omega
  · have hone : numVectors signal.length 1 τ = signal.length :=
      (numVectors_eq signal.length 1 τ le_rfl).trans (by simp)
    rw [embedVectors, hone]
    apply List.ext_getElem?
    intro i
    rcases lt_or_le i signal.length with hi | hi
    · rw [List.getElem?_map, List.getElem?_range hi, List.getElem?_map,
        List.getElem?_eq_getElem hi]
      rw [show List.range 1 = [0] from rfl]
      simp [List.getElem?_eq_getElem hi]
    · rw [List.getElem?_map, List.getElem?_map,
        List.getElem?_eq_none (by simpa using hi),
        List.getElem?_eq_none (by simpa using hi)]
      rfl

/-- C6 witness: the embedding theorem instantiated on `[1, 2, 3]` with
`m = 2`, `τ = 1`. -/
theorem embedding_exact_witness :
    (embedVectors [1, 2, 3] 2 1).length = List.length [(1 : ℚ), 2, 3] - (2 - 1) * 1 ∧
    (∀ i, i < List.length [(1 : ℚ), 2, 3] - (2 - 1) * 1 →
      (embedVectors [1, 2, 3] 2 1).getD i []
        = (List.range 2).map fun d => List.getD [(1 : ℚ), 2, 3] (i + d * 1) 0) ∧
    (∀ i d, i < List.length [(1 : ℚ), 2, 3] - (2 - 1) * 1 → d < 2 →
      i + d * 1 < List.length [(1 : ℚ), 2, 3]) ∧
    embedVectors [1, 2, 3] 1 1 = List.map (fun x => [x]) [(1 : ℚ), 2, 3] :=
  embedding_exact [1, 2, 3] 2 1 (by norm_num) (by norm_num) (by norm_num)

/-! ## Sample-entropy estimator (`calculateSampEn`, App.jsx 412-442) -/

/-- Chebyshev distance of the two length-`m` windows at `i` and `j`: the JS
starts from `maxDiff = 0` and takes the running maximum of
`Math.abs(signal[i+k] - signal[j+k])`. -/
def chebWindow (signal : List ℚ) (m i j : ℕ) : ℚ :=
  ((List.range m).map fun k => |signal.getD (i + k) 0 - signal.getD (j + k) 0|).foldl max 0

/-- The count `B` of `m`-length template matches accumulated by the double
loop `for i in [0, n-m)`, `for j in (i, n-m)`: pairs with `maxDiff < r`. -/
def sampEnB (signal : List ℚ) (m : ℕ) (r : ℚ) : ℕ :=
  ((List.range (signal.length - m)).map fun i =>
    (List.range (signal.length - m)).countP fun j =>
      decide (i < j) && decide (chebWindow signal m i j < r)).sum

/-- The count `A` of `m+1`-length matches: of the `B` pairs, those passing the
source's bounds guard `i+m < n && j+m < n` whose combined maximum
`Math.max(maxDiff, extDiff) < r`. -/
def sampEnA (signal : List ℚ) (m : ℕ) (r : ℚ) : ℕ :=
  ((List.range (signal.length - m)).map fun i =>
    (List.range (signal.length - m)).countP fun j =>
      decide (i < j) && decide (chebWindow signal m i j < r)
        && (decide (i + m < signal.length) && decide (j + m < signal.length))
        && decide (max (chebWindow signal m i j)
            |signal.getD (i + m) 0 - signal.getD (j + m) 0| < r)).sum

/-- `calculateSampEn(signal, m, r)`: `-ln(A/B)`, or the fixed sentinel `2.5`
when `B === 0 || A === 0` (the source's `return 2.5`). -/
noncomputable def calculateSampEn (signal : List ℚ) (m : ℕ) (r : ℚ) : ℝ :=
  if sampEnB signal m r = 0 ∨ sampEnA signal m r = 0 then 2.5
  else -Real.log ((sampEnA signal m r : ℝ) / (sampEnB signal m r : ℝ))

/-- Specification-side count of `B`: ordered pairs `i < j` of window start
positions whose length-`m` windows lie within `r` coordinatewise. -/
def sampEnBSpec (signal : List ℚ) (m : ℕ) (r : ℚ) : ℕ :=
  ((Finset.range (signal.length - m) ×ˢ Finset.range (signal.length - m)).filter
    fun p => p.1 < p.2 ∧
      ∀ k < m, |signal.getD (p.1 + k) 0 - signal.getD (p.2 + k) 0| < r).card

/-- Specification-side count of `A`: the `B` pairs whose single extra points
at `i+m` and `j+m` also differ by less than `r`. -/
def sampEnASpec (signal : List ℚ) (m : ℕ) (r : ℚ) : ℕ :=
  ((Finset.range (signal.length - m) ×ˢ Finset.range (signal.length - m)).filter
    fun p => p.1 < p.2 ∧
      (∀ k < m, |signal.getD (p.1 + k) 0 - signal.getD (p.2 + k) 0| < r) ∧
      |signal.getD (p.1 + m) 0 - signal.getD (p.2 + m) 0| < r).card

theorem foldl_max_lt (l : List ℚ) (b r : ℚ) :
    l.foldl max b < r ↔ (b < r ∧ ∀ x ∈ l, x < r) := by
  induction l generalizing b with
  | nil => simp
  | cons x xs ih =>
    rw [List.foldl_cons, ih (max b x), max_lt_iff]
    constructor
    · rintro ⟨⟨hb, hx⟩, hxs⟩
      refine ⟨hb, ?_⟩
      intro y hy
      rcases List.mem_cons.mp hy with rfl | hy
      · exact hx
      · exact hxs y hy
    · rintro ⟨hb, hall⟩
      exact ⟨⟨hb, hall x (List.mem_cons_self x xs)⟩,
        fun y hy => hall y (List.mem_cons_of_mem x hy)⟩

theorem foldl_max_init_le (l : List ℚ) (b : ℚ) : b ≤ l.foldl max b := by
  induction l generalizing b with
  | nil => simp
  | cons x xs ih => exact le_trans (le_max_left b x) (ih (max b x))

theorem chebWindow_nonneg (signal : List ℚ) (m i j : ℕ) : 0 ≤ chebWindow signal m i j :=
  foldl_max_init_le _ 0

theorem chebWindow_lt_iff (signal : List ℚ) (m i j : ℕ) (r : ℚ) (hr : 0 < r) :
    chebWindow signal m i j < r
      ↔ ∀ k < m, |signal.getD (i + k) 0 - signal.getD (j + k) 0| < r := by
  rw [chebWindow, foldl_max_lt]
  constructor
  · rintro ⟨-, hall⟩
    intro k hk
    exact hall _ (List.mem_map_of_mem _ (List.mem_range.mpr hk))
  · intro hall
    refine ⟨hr, ?_⟩
    intro x hx
    rw [List.mem_map] at hx
    obtain ⟨k, hk, rfl⟩ := hx
    exact hall k (List.mem_range.mp hk)

/-- C4: for `m ≥ 1` and `r > 0`, the loop counters `B` and `A` of
`calculateSampEn` are exactly the pair counts of the specification, the result
is exactly `-ln(A/B)` whenever both counts are positive, and it is the fixed
sentinel `2.5` (not `Infinity` or `NaN`) when `B = 0` or `A = 0`. -/
theorem calculateSampEn_exact (signal : List ℚ) (m : ℕ) (r : ℚ)
    (hm : 1 ≤ m) (hr : 0 < r) :
    sampEnB signal m r = sampEnBSpec signal m r ∧
    sampEnA signal m r = sampEnASpec signal m r ∧
    (¬(sampEnBSpec signal m r = 0 ∨ sampEnASpec signal m r = 0) →
      calculateSampEn signal m r
        = -Real.log ((sampEnASpec signal m r : ℝ) / (sampEnBSpec signal m r : ℝ))) ∧
    ((sampEnBSpec signal m r = 0 ∨ sampEnASpec signal m r = 0) →
      calculateSampEn signal m r = 2.5) := by
  have hB : sampEnB signal m r = sampEnBSpec signal m r := by
    rw [sampEnB, sampEnBSpec, sum_list_range_map, Finset.card_filter,
      Finset.sum_product (Finset.range (signal.length - m)) (Finset.range (signal.length - m))]
    apply Finset.sum_congr rfl
    intro i _
    rw [countP_list_range]
    apply Finset.sum_congr rfl
    intro j _
    apply if_congr _ rfl rfl
    dsimp only
    simp only [Bool.and_eq_true, decide_eq_true_eq]
    rw [chebWindow_lt_iff signal m i j r hr]
  have hA : sampEnA signal m r = sampEnASpec signal m r := by
    rw [sampEnA, sampEnASpec, sum_list_range_map, Finset.card_filter,
      Finset.sum_product (Finset.range (signal.length - m)) (Finset.range (signal.length - m))]
    apply Finset.sum_congr rfl
    intro i hi
    rw [countP_list_range]
    apply Finset.sum_congr rfl
    intro j hj
    rw [Finset.mem_range] at hi hj
    apply if_congr _ rfl rfl
    dsimp only
    simp only [Bool.and_eq_true, decide_eq_true_eq]
    rw [chebWindow_lt_iff signal m i j r hr, max_lt_iff]
    constructor
    · rintro ⟨⟨⟨hij, hcheb⟩, -⟩, -, hext⟩
      exact ⟨hij, hcheb, hext⟩
    · rintro ⟨hij, hcheb, hext⟩
      refine ⟨⟨⟨hij, hcheb⟩, ?_, ?_⟩, ?_, hext⟩
      · omega
      · omega
      · rw [chebWindow_lt_iff signal m i j r hr]
        exact hcheb
  refine ⟨hB, hA, ?_, ?_⟩
  · intro hne
    rw [calculateSampEn, hB, hA, if_neg hne]
  · intro hz
    rw [calculateSampEn, hB, hA, if_pos hz]

/-- C4 witness: on the constant signal `[0, 0, 0, 0]` with `m = 1`, `r = 1`
every pair matches (`B = A = 3`) and the theorem applies. -/
theorem calculateSampEn_exact_witness :
    sampEnB [0, 0, 0, 0] 1 1 = sampEnBSpec [0, 0, 0, 0] 1 1 ∧
    sampEnA [0, 0, 0, 0] 1 1 = sampEnASpec [0, 0, 0, 0] 1 1 ∧
    (¬(sampEnBSpec [0, 0, 0, 0] 1 1 = 0 ∨ sampEnASpec [0, 0, 0, 0] 1 1 = 0) →
      calculateSampEn [0, 0, 0, 0] 1 1
        = -Real.log ((sampEnASpec [0, 0, 0, 0] 1 1 : ℝ) / (sampEnBSpec [0, 0, 0, 0] 1 1 : ℝ))) ∧
    ((sampEnBSpec [0, 0, 0, 0] 1 1 = 0 ∨ sampEnASpec [0, 0, 0, 0] 1 1 = 0) →
      calculateSampEn [0, 0, 0, 0] 1 1 = 2.5) :=
  calculateSampEn_exact [0, 0, 0, 0] 1 1 (by norm_num) (by norm_num)

/-! ## Parameter handling (C10): the engine performs no validation -/

/-- C10 counterexample: two malformed calls that the spec says must be
rejected before computing, both of which silently compute an ordinary result —
the empty input sequence yields the empty recurrence matrix, and a negative
tolerance yields the sentinel value `2.5`, with no invalid-parameter signal in
either case (every engine function is total). -/
theorem no_parameter_validation_cex :
    computeRecurrenceMatrix [] (3/10) 2 1 = [] ∧ calculateSampEn [1] 1 (-1) = 2.5 := by
  constructor
  · rfl
  · rw [calculateSampEn,
      if_pos (Or.inl (show sampEnB [1] 1 (-1) = 0 from rfl))]

/-- C10 (amended): the engine does not validate parameters; malformed calls
compute degenerate results instead of signalling — an empty sequence (with any
`m ≥ 1`, any delay and any threshold) produces the empty matrix, and a
non-positive tolerance produces zero matches and the sentinel `2.5`. -/
theorem no_parameter_validation (e : ℚ) (m τ : ℕ) (signal : List ℚ) (mm : ℕ) (r : ℚ) :
    (1 ≤ m → computeRecurrenceMatrix [] e m τ = []) ∧
    (r ≤ 0 → calculateSampEn signal mm r = 2.5) := by
  constructor
  · intro hm
    have hnum : numVectors (List.length ([] : List ℚ)) m τ = 0 := by
      rw [numVectors_eq _ _ _ hm]
      simp
    rw [computeRecurrenceMatrix]
    rw [hnum]
    rfl
  · intro hr
    have hBz : sampEnB signal mm r = 0 := by
      rw [sampEnB]
      have hall : ∀ i ∈ List.range (signal.length - mm),
          ((List.range (signal.length - mm)).countP fun j =>
            decide (i < j) && decide (chebWindow signal mm i j < r)) = 0 := by
        intro i _
        rw [List.countP_eq_zero]
        intro j _
        have hnn := chebWindow_nonneg signal mm i j
        have hnlt : ¬ chebWindow signal mm i j < r := by linarith
        simp [hnlt]
      apply List.sum_eq_zero
      intro x hx
      rw [List.mem_map] at hx
      obtain ⟨i, hi, rfl⟩ := hx
      exact hall i hi
    rw [calculateSampEn, if_pos (Or.inl hBz)]

/-! ## Box-counting fractal dimension estimator (`calculateFD`, App.jsx 826-842) -/

/-- The fixed box sizes the source regresses over. -/
def fdSizes : List ℕ := [128, 64, 32, 16, 8, 4]

/-- `calculateFD`: ordinary least-squares slope of `ln N(ε)` against
`ln(1/ε)` over the six box sizes, with `Math.log(Math.max(c, 1))` guarding
empty counts, exactly as the source computes it. -/
noncomputable def calculateFD (counts : ℕ → ℕ) : ℝ :=
  let logSizes := fdSizes.map fun (s : ℕ) => Real.log (1 / (s : ℝ))
  let logCounts := fdSizes.map fun s => Real.log ((max (counts s) 1 : ℕ) : ℝ)
  let n : ℝ := (logSizes.length : ℝ)
  let sumX := logSizes.sum
  let sumY := logCounts.sum
  let sumXY := ((logSizes.zip logCounts).map fun p => p.1 * p.2).sum
  let sumX2 := (logSizes.map fun x => x * x).sum
  (n * sumXY - sumX * sumY) / (n * sumX2 - sumX * sumX)

/-- The denominator `n * sumX2 - sumX * sumX` of the regression slope, over
the source's fixed box sizes. -/
noncomputable def fdDenom : ℝ :=
  ((fdSizes.map fun (s : ℕ) => Real.log (1 / (s : ℝ))).length : ℝ)
      * ((fdSizes.map fun (s : ℕ) => Real.log (1 / (s : ℝ))).map fun x => x * x).sum
    - (fdSizes.map fun (s : ℕ) => Real.log (1 / (s : ℝ))).sum
      * (fdSizes.map fun (s : ℕ) => Real.log (1 / (s : ℝ))).sum

/-- C8: when every tested box size yields the same occupancy count, the
regression slope is 0 — and the denominator of the slope is nonzero (the six
log box sizes are distinct), so no division by zero is involved. -/
theorem calculateFD_const_counts (counts : ℕ → ℕ) (c : ℕ)
    (hconst : ∀ s ∈ fdSizes, counts s = c) :
    calculateFD counts = 0 ∧ fdDenom ≠ 0 := by
  have h128 := hconst 128 (by norm_num [fdSizes])
  have h64 := hconst 64 (by norm_num [fdSizes])
  have h32 := hconst 32 (by norm_num [fdSizes])
  have h16 := hconst 16 (by norm_num [fdSizes])
  have h8 := hconst 8 (by norm_num [fdSizes])
  have h4 := hconst 4 (by norm_num [fdSizes])
  have e2 : (0 : ℝ) < Real.log 2 := Real.log_pos (by norm_num)
  have l128 : Real.log (1 / ((128 : ℕ) : ℝ)) = -(7 * Real.log 2) := by
    rw [show ((128 : ℕ) : ℝ) = 2 ^ (7 : ℕ) by norm_num, one_div, Real.log_inv, Real.log_pow]
    push_cast
    ring
  have l64 : Real.log (1 / ((64 : ℕ) : ℝ)) = -(6 * Real.log 2) := by
    rw [show ((64 : ℕ) : ℝ) = 2 ^ (6 : ℕ) by norm_num, one_div, Real.log_inv, Real.log_pow]
    push_cast
    ring
  have l32 : Real.log (1 / ((32 : ℕ) : ℝ)) = -(5 * Real.log 2) := by
    rw [show ((32 : ℕ) : ℝ) = 2 ^ (5 : ℕ) by norm_num, one_div, Real.log_inv, Real.log_pow]
    push_cast
    ring
  have l16 : Real.log (1 / ((16 : ℕ) : ℝ)) = -(4 * Real.log 2) := by
    rw [show ((16 : ℕ) : ℝ) = 2 ^ (4 : ℕ) by norm_num, one_div, Real.log_inv, Real.log_pow]
    push_cast
    ring
  have l8 : Real.log (1 / ((8 : ℕ) : ℝ)) = -(3 * Real.log 2) := by
    rw [show ((8 : ℕ) : ℝ) = 2 ^ (3 : ℕ) by norm_num, one_div, Real.log_inv, Real.log_pow]
    push_cast
    ring
  have l4 : Real.log (1 / ((4 : ℕ) : ℝ)) = -(2 * Real.log 2) := by
    rw [show ((4 : ℕ) : ℝ) = 2 ^ (2 : ℕ) by norm_num, one_div, Real.log_inv, Real.log_pow]
    push_cast
    ring
  constructor
  · rw [calculateFD]
    simp only [fdSizes, List.map_cons, List.map_nil, List.zip_cons_cons, List.zip_nil_right,
      List.sum_cons, List.sum_nil, List.length_cons, List.length_nil,
      Nat.cast_add, Nat.cast_one, Nat.cast_zero, h128, h64, h32, h16, h8, h4]
    rw [div_eq_zero_iff]
    left
    ring
  · rw [fdDenom]
    simp only [fdSizes, List.map_cons, List.map_nil, List.sum_cons, List.sum_nil,
      List.length_cons, List.length_nil, Nat.cast_add, Nat.cast_one, Nat.cast_zero,
      l128, l64, l32, l16, l8, l4]
    intro heq
    ring_nf at heq
    nlinarith [mul_pos e2 e2, heq]

/-- C8 witness: the theorem applied to the constant count function 5. -/
theorem calculateFD_const_counts_witness :
    calculateFD (fun _ => 5) = 0 ∧ fdDenom ≠ 0 :=
  calculateFD_const_counts (fun _ => 5) 5 (fun _ _ => rfl)

/-! ## Divergence demonstration model (`getTrajectories`, App.jsx 105-125) -/

/-- The source's `initialSeparation = 0.01`. -/
noncomputable def initialSeparation : ℝ := 0.01

/-- `getTrajectories()`: `t = time / 10`; separation and LLE per regime, with
the returned separation clamped by `Math.min(separation, 2)`. Returns
`(separation, lle, t)`. -/
noncomputable def getTrajectories (trajectoryType : String) (time : ℕ) : ℝ × ℝ × ℝ :=
  let t : ℝ := (time : ℝ) / 10
  let sep_lle : ℝ × ℝ :=
    if trajectoryType = "chaotic" then (initialSeparation * Real.exp (0.9 * t), 0.9)
    else if trajectoryType = "periodic" then (initialSeparation * (1 + 0.5 * Real.sin t), 0)
    else (initialSeparation * Real.exp (-0.5 * t), -0.5)
  (min sep_lle.1 2, sep_lle.2, t)

/-- C9 counterexample: at `time = 100` (inside the animation range
`0 … maxTime = 100`) the chaotic-regime separation is clamped to 2 by
`Math.min(separation, 2)`, so it does not equal `d₀·e^{λt}` there:
`d₀·e^{0.9·10} = 0.01·e⁹ > 2`. -/
theorem divergence_clamp_cex :
    (getTrajectories "chaotic" 100).1
      ≠ initialSeparation * Real.exp (0.9 * (((100 : ℕ) : ℝ) / 10)) := by
  have ht : (((100 : ℕ) : ℝ) / 10) = 10 := by norm_num
  have hexp : (200 : ℝ) < Real.exp 9 := by
    have h1 : ((5 : ℝ) / 2) ^ (6 : ℕ) ≤ Real.exp (3 / 2) ^ (6 : ℕ) := by
      apply pow_le_pow_left₀ (by norm_num)
      have := Real.add_one_le_exp ((3 : ℝ) / 2)
      linarith
    have h2 : Real.exp ((3 : ℝ) / 2) ^ (6 : ℕ) = Real.exp 9 := by
      rw [← Real.exp_nat_mul]
      norm_num
    have h3 : ((5 : ℝ) / 2) ^ (6 : ℕ) = 15625 / 64 := by norm_num
    rw [h2, h3] at h1
    linarith
  have hgt : (2 : ℝ) < initialSeparation * Real.exp (0.9 * (((100 : ℕ) : ℝ) / 10)) := by
    rw [ht, initialSeparation]
    rw [show (0.9 : ℝ) * 10 = 9 by norm_num]
    rw [show (0.01 : ℝ) = 1 / 100 by norm_num]
    linarith
  have hval : (getTrajectories "chaotic" 100).1
      = min (initialSeparation * Real.exp (0.9 * (((100 : ℕ) : ℝ) / 10))) 2 := by
    rw [getTrajectories, if_pos rfl]
  rw [hval, min_eq_right hgt.le]
  exact ne_of_lt hgt

/-- C9 (amended): the model's separation is `min(d₀·e^{λt}, 2)`: for the
contracting regime (`λ = -0.5`) and the bounded regime (the oscillatory
`d₀·(1 + 0.5·sin t)` at `λ = 0`) the clamp never binds and the separation
equals the formula at every `t` in range, while for the expanding regime
(`λ = 0.9`) the separation is the clamped `min(d₀·e^{λt}, 2)`. -/
theorem divergence_model_separation (time : ℕ) :
    (getTrajectories "chaotic" time).1
        = min (initialSeparation * Real.exp (0.9 * ((time : ℝ) / 10))) 2 ∧
    (getTrajectories "periodic" time).1
        = initialSeparation * (1 + 0.5 * Real.sin ((time : ℝ) / 10)) ∧
    (getTrajectories "stable" time).1
        = initialSeparation * Real.exp (-0.5 * ((time : ℝ) / 10)) ∧
    (getTrajectories "chaotic" time).2.1 = 0.9 ∧
    (getTrajectories "periodic" time).2.1 = 0 ∧
    (getTrajectories "stable" time).2.1 = -0.5 := by
  have ht0 : (0 : ℝ) ≤ (time : ℝ) / 10 := by positivity
  refine ⟨?_, ?_, ?_, ?_, ?_, ?_⟩
  · rw [getTrajectories, if_pos rfl]
  · rw [getTrajectories, if_neg (by decide), if_pos rfl]
    apply min_eq_left
    have hsin : Real.sin ((time : ℝ) / 10) ≤ 1 := Real.sin_le_one _
    rw [initialSeparation]
    nlinarith
  · rw [getTrajectories, if_neg (by decide), if_neg (by decide)]
    apply min_eq_left
    have hexp : Real.exp (-0.5 * ((time : ℝ) / 10)) ≤ 1 := by
      rw [Real.exp_le_one_iff]
      nlinarith
    rw [initialSeparation]
    nlinarith
  · rw [getTrajectories, if_pos rfl]
  · rw [getTrajectories, if_neg (by decide), if_pos rfl]
  · rw [getTrajectories, if_neg (by decide), if_neg (by decide)]

/-- C1: for every input sequence, `ε ≥ 0`, `m ≥ 1`, `τ ≥ 1`, the matrix built by
`computeRecurrenceMatrix` is symmetric and every main-diagonal entry is 1. -/
theorem computeRecurrenceMatrix_symm_diag_one (signal : List ℚ) (threshold : ℚ)
    (embeddingDim delay : ℕ) (hthr : 0 ≤ threshold)
    (hdim : 1 ≤ embeddingDim) (hdel : 1 ≤ delay) :
    (∀ i j, entry (computeRecurrenceMatrix signal threshold embeddingDim delay) i j
        = entry (computeRecurrenceMatrix signal threshold embeddingDim delay) j i) ∧
    (∀ i, i < numVectors signal.length embeddingDim delay →
        entry (computeRecurrenceMatrix signal threshold embeddingDim delay) i i = 1) := by
  constructor
  · intro i j
    rcases lt_or_le i (numVectors signal.length embeddingDim delay) with hi | hi
    · rcases lt_or_le j (numVectors signal.length embeddingDim delay) with hj | hj
      · rw [entry_computeRecurrenceMatrix signal threshold embeddingDim delay i j hi hj,
          entry_computeRecurrenceMatrix signal threshold embeddingDim delay j i hj hi,
          distSq_comm]
      · rw [entry_computeRecurrenceMatrix_col_ge signal threshold embeddingDim delay i j hj,
          entry_computeRecurrenceMatrix_row_ge signal threshold embeddingDim delay j i hj]
    · rw [entry_computeRecurrenceMatrix_row_ge signal threshold embeddingDim delay i j hi,
        entry_computeRecurrenceMatrix_col_ge signal threshold embeddingDim delay j i hi]
  · intro i hi
    rw [entry_computeRecurrenceMatrix signal threshold embeddingDim delay i i hi hi,
      distSq_self, recEntry]
    rw [if_pos ⟨hthr, by positivity⟩]

/-- C1 witness: a concrete instantiation of the symmetry and diagonal
theorem on the two-sample signal `[1, 1/2]` with `ε = 1/2`, `m = 1`, `τ = 1`. -/
theorem computeRecurrenceMatrix_symm_diag_one_witness :
    (∀ i j, entry (computeRecurrenceMatrix [1, 1/2] (1/2) 1 1) i j
        = entry (computeRecurrenceMatrix [1, 1/2] (1/2) 1 1) j i) ∧
    (∀ i, i < numVectors (List.length [(1 : ℚ), 1/2]) 1 1 →
        entry (computeRecurrenceMatrix [1, 1/2] (1/2) 1 1) i i = 1) :=
  computeRecurrenceMatrix_symm_diag_one [1, 1/2] (1/2) 1 1 (by norm_num)
    (by norm_num) (by norm_num)

end ChaosFE
